import Mathlib

/-!
Shallow embedding of `g1FullGCCompactTask.cpp`.

This development models the compaction phase of the G1 full GC
(`G1FullGCCompactTask` and its helper closures) at word granularity:

* heap memory is a map from word addresses to word values;
* an object is its start address, its size in words, and the forwarding
  pointer held in its header (null = stationary);
* a heap region is a record of the flags, bitmap and bookkeeping the
  compaction phase reads and writes;
* the `assert`s of the source are modelled as `Except` errors: in
  non-production builds a failed assertion aborts, so a function that can
  trip an assertion returns `Except GCAssert _`.

Leaf primitives that live in headers outside this translation unit
(`Copy::aligned_conjoint_words`, `oopDesc::init_mark`,
`G1CMBitMap::clear_region`, the `HeapRegion::reset_*` methods) are
modelled from the specification's description of them; each such
definition says so in its doc comment.
-/

/-- Word-addressed heap memory: each word address holds a word value. -/
def Mem : Type := Nat → Nat

/-- Modelled from the spec: `Copy::aligned_conjoint_words(src, dst, size)` is an
overlap-safe (memmove-equivalent) copy of `size` words from `src` to `dst`:
every destination word receives the value the corresponding source word had
*before* the copy started. -/
def Copy.aligned_conjoint_words (src dst size : Nat) (mem : Mem) : Mem :=
  fun a => if dst ≤ a ∧ a < dst + size then mem (src + (a - dst)) else mem a

/-- Modelled from the spec: the canonical "just relocated" mark word installed
by `oopDesc::init_mark` (the prototype mark: unlocked, no hash, no forwarding). -/
def markPrototype : Nat := 1

/-- Modelled from the spec: `oop(destination)->init_mark()` overwrites exactly
the header word (word 0 of the object) with the prototype mark. -/
def init_mark (dst : Nat) (mem : Mem) : Mem :=
  fun a => if a = dst then markPrototype else mem a

/-- An object (oop) as this phase sees it: start address, self-describing size
in words, and the forwarding pointer stored in its header by the preceding
phase (`none` = the object does not move). The klass word sits at word offset 1,
inside the copied extent. -/
structure Oop where
  addr : Nat
  size : Nat
  forwardee : Option Nat
  deriving DecidableEq, Repr

/-- The assertion failures this phase can signal in non-production builds. -/
inductive GCAssert where
  /-- Source `assert(obj_addr != destination, ...)`. -/
  | movingToSelf
  /-- Source `assert(oop(destination)->klass() != NULL, ...)`. -/
  | noKlass
  /-- Source `assert(!hr->is_pinned(), ...)`. -/
  | pinnedInQueue
  /-- Source `assert(!hr->is_humongous(), ...)`. -/
  | humongousInQueue
  /-- Source `assert(!r->is_starts_humongous() || _bitmap->is_marked((oop)r->bottom()), ...)`. -/
  | humongousNotMarked
  deriving DecidableEq, Repr

/-- Source `G1FullGCCompactTask::G1CompactRegionClosure::apply(oop obj)`: read the
object's size and forwardee; a null forwardee means the object is stationary
and nothing happens; otherwise assert the move is real, copy the object's full
word extent to the destination, reinitialize the mark word there, and assert
the relocated object still has a klass. Returns the object's size either way. -/
def G1CompactRegionClosure.apply (obj : Oop) (mem : Mem) :
    Except GCAssert (Mem × Nat) :=
  let size := obj.size
  match obj.forwardee with
  | none => .ok (mem, size)
  | some destination =>
    if obj.addr = destination then
      .error .movingToSelf
    else
      let mem1 := Copy.aligned_conjoint_words obj.addr destination size mem
      let mem2 := init_mark destination mem1
      if mem2 (destination + 1) = 0 then
        .error .noKlass
      else
        .ok (mem2, size)

/-- The per-cycle terminal state of a heap region as driven by this phase. -/
inductive RegionPhaseState where
  | unprocessed
  | compacted
  | skipped
  | pinnedReset
  deriving DecidableEq, Repr

/-- A heap region, restricted to the attributes this phase reads or writes:
type flags, the region's slice of the liveness bitmap (the list of marked
object-start addresses, ascending), the live objects the bitmap walk yields,
the bottom address and the top-at-mark-start bookkeeping, and the per-cycle
phase state. `terminalWrites` is a ghost counter: it is bumped by the
heap-level passes each time a terminal transition is applied to the region,
and exists only to state the exactly-once property. -/
structure HeapRegion where
  is_pinned : Bool
  is_humongous : Bool
  is_starts_humongous : Bool
  bottom : Nat
  tams : Nat
  bitmap : List Nat
  liveObjects : List Oop
  state : RegionPhaseState
  terminalWrites : Nat
  deriving DecidableEq, Repr

/-- Modelled from the spec: `G1CMBitMap::clear_region(hr)` clears every mark
bit in the region's range. -/
def G1CMBitMap.clear_region (hr : HeapRegion) : HeapRegion :=
  { hr with bitmap := [] }

/-- Modelled from the spec: `HeapRegion::reset_compacted_after_full_gc` flips
the region's state to "compacted" and resets the no-longer-needed compaction
bookkeeping (the top-at-mark-start collapses to bottom). -/
def HeapRegion.reset_compacted_after_full_gc (hr : HeapRegion) : HeapRegion :=
  { hr with state := .compacted, tams := hr.bottom }

/-- Modelled from the spec: `HeapRegion::reset_no_compaction_region_during_compaction`
resets the region's state to "not compacted, but cycle-processed" and collapses
the top-at-mark-start bookkeeping. -/
def HeapRegion.reset_no_compaction_region_during_compaction (hr : HeapRegion) : HeapRegion :=
  { hr with state := .skipped, tams := hr.bottom }

/-- Modelled from the spec: `HeapRegion::reset_pinned_after_full_gc` resets the
pinned region's post-cycle bookkeeping (top-at-mark-start back to bottom) so
the region can be reused normally next cycle; the region's type flags are not
changed. -/
def HeapRegion.reset_pinned_after_full_gc (hr : HeapRegion) : HeapRegion :=
  { hr with state := .pinnedReset, tams := hr.bottom }

/-- The configuration flags this phase consults. -/
structure Config where
  G1VerifyBitmaps : Bool
  MarkSweepDeadRatio : Nat
  deriving DecidableEq, Repr

/-- Source `hr->apply_to_marked_objects(bitmap, &compact)`: walk the live objects of
the region in ascending address order (the order the bitmap records), applying
the compaction closure to each; the returned size advances the walk. -/
def applyAll : List Oop → Mem → Except GCAssert Mem
  | [], mem => .ok mem
  | o :: rest, mem =>
    match G1CompactRegionClosure.apply o mem with
    | .error e => .error e
    | .ok (mem1, _) => applyAll rest mem1

/-- Source `G1FullGCCompactTask::compact_region(HeapRegion* hr)`: assert the region is
neither pinned nor humongous, relocate every live object via the compaction
closure, clear the region's liveness bitmap only when `G1VerifyBitmaps` is
set, then reset the region to its compacted state. -/
def G1FullGCCompactTask.compact_region (cfg : Config) (hr : HeapRegion) (mem : Mem) :
    Except GCAssert (HeapRegion × Mem) :=
  if hr.is_pinned then
    .error .pinnedInQueue
  else if hr.is_humongous then
    .error .humongousInQueue
  else
    match applyAll hr.liveObjects mem with
    | .error e => .error e
    | .ok mem1 =>
      let hr1 := if cfg.G1VerifyBitmaps then G1CMBitMap.clear_region hr else hr
      .ok (hr1.reset_compacted_after_full_gc, mem1)

/-- Source `G1FullGCCompactTask::process_skipping_compaction_region(HeapRegion* hr)`:
clear the region's liveness bitmap unconditionally and reset its state; the
heap memory is not touched. -/
def G1FullGCCompactTask.process_skipping_compaction_region (hr : HeapRegion) : HeapRegion :=
  (G1CMBitMap.clear_region hr).reset_no_compaction_region_during_compaction

/-- Source `G1ResetPinnedClosure::do_heap_region(HeapRegion* r)`: a non-pinned region
is left untouched; a pinned region has the structural invariant checked (a
starts-humongous pinned region must have its first word marked live) and its
pinned bookkeeping reset. The returned `Bool` is the closure's return value
(`true` would stop the surrounding iteration early). -/
def G1ResetPinnedClosure.do_heap_region (r : HeapRegion) :
    Except GCAssert (HeapRegion × Bool) :=
  if r.is_pinned = false then
    .ok (r, false)
  else if r.is_starts_humongous = true ∧ r.bottom ∉ r.bitmap then
    .error .humongousNotMarked
  else
    .ok (r.reset_pinned_after_full_gc, false)

/-- The heap as this phase sees it: the sequence of regions (a queue or slice
refers to a region by its index here) together with the word memory. -/
structure Heap where
  regions : List HeapRegion
  mem : Mem

/-- Ghost instrumentation: record one write of a terminal flag on a region.
The heap-level passes wrap every terminal transition in this bump so the
exactly-once property can be stated; it models no source operation. -/
def bumpTerminal (r : HeapRegion) : HeapRegion :=
  { r with terminalWrites := r.terminalWrites + 1 }

/-- One iteration of the compaction-queue loop of
`G1FullGCCompactTask::work` / `serial_compaction`: run `compact_region` on the
region the queue entry refers to and store the result. An index outside the
heap refers to no region and changes nothing. -/
def compactRegionAt (cfg : Config) (h : Heap) (i : Nat) : Except GCAssert Heap :=
  match h.regions[i]? with
  | none => .ok h
  | some r =>
    match G1FullGCCompactTask.compact_region cfg r h.mem with
    | .error e => .error e
    | .ok (r', mem') => .ok ⟨h.regions.set i (bumpTerminal r'), mem'⟩

/-- The compaction-queue loop: `for (it = queue->begin(); it != queue->end(); ++it)
compact_region(*it);` — regions are compacted strictly in queue order. -/
def compactQueuePass (cfg : Config) : List Nat → Heap → Except GCAssert Heap
  | [], h => .ok h
  | i :: rest, h =>
    match compactRegionAt cfg h i with
    | .error e => .error e
    | .ok h1 => compactQueuePass cfg rest h1

/-- One iteration of the skip-compaction loop of `work`: apply
`process_skipping_compaction_region` to the region the entry refers to. -/
def skipRegionAt (h : Heap) (i : Nat) : Heap :=
  match h.regions[i]? with
  | none => h
  | some r =>
    ⟨h.regions.set i (bumpTerminal (G1FullGCCompactTask.process_skipping_compaction_region r)),
     h.mem⟩

/-- The skip-compaction loop of `work`, over this worker's skipping set. -/
def skipPass : List Nat → Heap → Heap
  | [], h => h
  | i :: rest, h => skipPass rest (skipRegionAt h i)

/-- Source `heap_region_par_iterate_from_worker_offset(&hc, &_claimer, worker_id)`
restricted to the slice of region indices this worker claims: apply
`G1ResetPinnedClosure::do_heap_region` to each claimed region in turn,
stopping early if the closure ever returns `true`. Only a pinned region's
store is a terminal write (a non-pinned region is returned unchanged). -/
def pinnedIterate : List Nat → Heap → Except GCAssert Heap
  | [], h => .ok h
  | i :: rest, h =>
    match h.regions[i]? with
    | none => pinnedIterate rest h
    | some r =>
      match G1ResetPinnedClosure.do_heap_region r with
      | .error e => .error e
      | .ok (r', stop) =>
        let h1 : Heap := ⟨h.regions.set i (if r.is_pinned then bumpTerminal r' else r'), h.mem⟩
        if stop then .ok h1 else pinnedIterate rest h1

/-- Source `G1FullGCCompactTask::work(uint worker_id)`: drain this worker's
compaction queue through `compact_region`, then — only when
`MarkSweepDeadRatio > 0` — drain its skipping-compaction set, then apply the
pinned-reset closure over this worker's claimed slice of all heap regions. -/
def G1FullGCCompactTask.work (cfg : Config) (queue skips slice : List Nat) (h : Heap) :
    Except GCAssert Heap :=
  match compactQueuePass cfg queue h with
  | .error e => .error e
  | .ok h1 =>
    let h2 := if 0 < cfg.MarkSweepDeadRatio then skipPass skips h1 else h1
    pinnedIterate slice h2

/-- Source `G1FullGCCompactTask::serial_compaction()`: drain the serial compaction
point's queue through `compact_region`, in queue order. -/
def G1FullGCCompactTask.serial_compaction (cfg : Config) (queue : List Nat) (h : Heap) :
    Except GCAssert Heap :=
  compactQueuePass cfg queue h

/-- The inputs one worker receives for a cycle: its compaction queue, its
skipping-compaction set, and the slice of all-heap region indices its claimer
offset assigns to it. -/
structure WorkerPlan where
  queue : List Nat
  skips : List Nat
  slice : List Nat
  deriving DecidableEq, Repr

/-- All parallel workers' `work` invocations. The workers run on disjoint
region sets, so their parallel execution is modelled as sequential
composition. -/
def runWorkers (cfg : Config) : List WorkerPlan → Heap → Except GCAssert Heap
  | [], h => .ok h
  | w :: rest, h =>
    match G1FullGCCompactTask.work cfg w.queue w.skips w.slice h with
    | .error e => .error e
    | .ok h1 => runWorkers cfg rest h1

/-- A full compaction cycle: every parallel worker's `work`, then the serial
compaction pass over the residual queue. -/
def runCycle (cfg : Config) (workers : List WorkerPlan) (serialQueue : List Nat)
    (h : Heap) : Except GCAssert Heap :=
  match runWorkers cfg workers h with
  | .error e => .error e
  | .ok h1 => G1FullGCCompactTask.serial_compaction cfg serialQueue h1

/-- The region value `compactRegionAt` stores for a successfully compacted
region: bitmap conditionally cleared, compacted-reset applied, ghost counter
bumped. -/
def compactedResult (cfg : Config) (r : HeapRegion) : HeapRegion :=
  bumpTerminal
    ((if cfg.G1VerifyBitmaps then G1CMBitMap.clear_region r else r).reset_compacted_after_full_gc)

/-- The region value `skipRegionAt` stores for a skipping-compaction region. -/
def skipResult (r : HeapRegion) : HeapRegion :=
  bumpTerminal (G1FullGCCompactTask.process_skipping_compaction_region r)

/-- The region value `pinnedIterate` stores for a pinned region. -/
def pinnedResult (r : HeapRegion) : HeapRegion :=
  bumpTerminal r.reset_pinned_after_full_gc

/-- All compaction-queue entries of a list of workers, in order. -/
def queueIdxs (ws : List WorkerPlan) : List Nat := (ws.map WorkerPlan.queue).flatten

/-- All skipping-compaction entries of a list of workers. -/
def skipIdxs (ws : List WorkerPlan) : List Nat := (ws.map WorkerPlan.skips).flatten

/-- All claimed-slice entries of a list of workers. -/
def sliceIdxs (ws : List WorkerPlan) : List Nat := (ws.map WorkerPlan.slice).flatten

/-- Reference iteration for the pinned-reset pass that never consults the
closure's return value: it visits every claimed region unconditionally. Used
to state that the actual iteration, which stops early when the closure returns
`true`, in fact never stops early. -/
def pinnedIterateAll : List Nat → Heap → Except GCAssert Heap
  | [], h => .ok h
  | i :: rest, h =>
    match h.regions[i]? with
    | none => pinnedIterateAll rest h
    | some r =>
      match G1ResetPinnedClosure.do_heap_region r with
      | .error e => .error e
      | .ok (r', _) =>
        pinnedIterateAll rest ⟨h.regions.set i (if r.is_pinned then bumpTerminal r' else r'), h.mem⟩

/-! ## Basic lemmas about the memory primitives -/

theorem copy_words_in {src dst size i : Nat} (mem : Mem) (h : i < size) :
    Copy.aligned_conjoint_words src dst size mem (dst + i) = mem (src + i) := by
  unfold Copy.aligned_conjoint_words
  have h1 : dst ≤ dst + i := Nat.le_add_right dst i
  have h2 : dst + i < dst + size := Nat.add_lt_add_left h dst
  simp [h1, h2]

theorem init_mark_self (dst : Nat) (mem : Mem) : init_mark dst mem dst = markPrototype := by
  simp [init_mark]

theorem init_mark_other {dst a : Nat} (mem : Mem) (h : a ≠ dst) :
    init_mark dst mem a = mem a := by
  simp [init_mark, h]

/-! ## The Object Relocator -/

/-- C1: For every live object with a non-null forwarding pointer (a real move:
the destination differs from the source, and the object's extent includes its
klass word), `G1CompactRegionClosure::apply` copies the object's full
word-aligned extent from its current address to the destination and
reinitializes the header at the destination: the call succeeds, every word of
the object other than the header word is byte-identical at the destination to
the original, the header word at the destination holds the reinitialized mark,
and the returned value is the object's size. -/
theorem c1_relocator_copies_and_reinits_header (obj : Oop) (mem : Mem) (d : Nat)
    (hf : obj.forwardee = some d) (hne : obj.addr ≠ d)
    (hsz : 1 < obj.size) (hk : mem (obj.addr + 1) ≠ 0) :
    G1CompactRegionClosure.apply obj mem =
      .ok (init_mark d (Copy.aligned_conjoint_words obj.addr d obj.size mem), obj.size) ∧
    (∀ i, 0 < i → i < obj.size →
      init_mark d (Copy.aligned_conjoint_words obj.addr d obj.size mem) (d + i) =
        mem (obj.addr + i)) ∧
    init_mark d (Copy.aligned_conjoint_words obj.addr d obj.size mem) d =
      markPrototype := by
  have hklass : init_mark d (Copy.aligned_conjoint_words obj.addr d obj.size mem) (d + 1) =
      mem (obj.addr + 1) := by
    rw [init_mark_other _ (by omega), copy_words_in mem hsz]
  refine ⟨?_, ?_, init_mark_self d _⟩
  · unfold G1CompactRegionClosure.apply
    rw [hf]
    simp only [if_neg hne]
    rw [if_neg (by rw [hklass]; exact hk)]
  · intro i h0 hi
    rw [init_mark_other _ (by omega), copy_words_in mem hi]

/-- C2: For every object whose forwarding pointer is null,
`G1CompactRegionClosure::apply` performs no copy: it leaves the heap memory —
object bytes and header included — unchanged and returns the object's size. -/
theorem c2_stationary_object_untouched (obj : Oop) (mem : Mem)
    (hf : obj.forwardee = none) :
    G1CompactRegionClosure.apply obj mem = .ok (mem, obj.size) := by
  simp [G1CompactRegionClosure.apply, hf]

/-- Witness for C2 at a concrete stationary object. -/
theorem c2_stationary_object_untouched_witness :
    G1CompactRegionClosure.apply ⟨4, 2, none⟩ (fun _ => 7) = .ok (fun _ => 7, 2) :=
  c2_stationary_object_untouched ⟨4, 2, none⟩ (fun _ => 7) rfl

/-- C7: When a move is requested (non-null forwarding pointer), the relocator
signals the `movingToSelf` assertion exactly when the destination equals the
source; under the precondition that the destination is distinct the failure
branch of that assertion is unreachable. -/
theorem c7_move_to_self_is_asserted (obj : Oop) (mem : Mem) (d : Nat)
    (hf : obj.forwardee = some d) :
    G1CompactRegionClosure.apply obj mem = .error .movingToSelf ↔ obj.addr = d := by
  unfold G1CompactRegionClosure.apply
  rw [hf]
  by_cases he : obj.addr = d
  · simp [he]
  · simp only [if_neg he]
    constructor
    · intro h
      split at h <;> simp_all
    · intro h
      exact absurd h he

/-- Witness for C7: a requested move whose destination equals the source trips
the assertion at a concrete input. -/
theorem c7_move_to_self_is_asserted_witness :
    G1CompactRegionClosure.apply ⟨5, 2, some 5⟩ (fun _ => 3) = .error .movingToSelf :=
  (c7_move_to_self_is_asserted ⟨5, 2, some 5⟩ (fun _ => 3) 5 rfl).mpr rfl

/-- Witness for C1 at a concrete moving object. -/
theorem c1_relocator_copies_and_reinits_header_witness :
    G1CompactRegionClosure.apply ⟨10, 2, some 0⟩ (fun _ => 7) =
      .ok (init_mark 0 (Copy.aligned_conjoint_words 10 0 2 (fun _ => 7)), 2) ∧
    init_mark 0 (Copy.aligned_conjoint_words 10 0 2 (fun _ => 7)) 0 = markPrototype :=
  ⟨(c1_relocator_copies_and_reinits_header ⟨10, 2, some 0⟩ (fun _ => 7) 0 rfl
      (by decide) (by decide) (by decide)).1,
   (c1_relocator_copies_and_reinits_header ⟨10, 2, some 0⟩ (fun _ => 7) 0 rfl
      (by decide) (by decide) (by decide)).2.2⟩

/-! ## The Region Compactor -/

/-- A successful `compact_region` call means: the region was neither pinned nor
humongous, every live object was relocated by the closure, and the stored
region is the (conditionally bitmap-cleared) compacted reset of the input. -/
theorem compact_region_ok {cfg : Config} {hr r' : HeapRegion} {mem mem' : Mem}
    (h : G1FullGCCompactTask.compact_region cfg hr mem = .ok (r', mem')) :
    hr.is_pinned = false ∧ hr.is_humongous = false ∧
    applyAll hr.liveObjects mem = .ok mem' ∧
    r' = (if cfg.G1VerifyBitmaps then G1CMBitMap.clear_region hr else hr).reset_compacted_after_full_gc := by
  unfold G1FullGCCompactTask.compact_region at h
  by_cases hp : hr.is_pinned = true
  · rw [if_pos hp] at h; cases h
  · rw [if_neg hp] at h
    by_cases hh : hr.is_humongous = true
    · rw [if_pos hh] at h; cases h
    · rw [if_neg hh] at h
      cases e : applyAll hr.liveObjects mem with
      | error a => rw [e] at h; cases h
      | ok m1 =>
        rw [e] at h
        simp only [Except.ok.injEq, Prod.mk.injEq] at h
        refine ⟨by simpa using hp, by simpa using hh, ?_, h.1.symm⟩
        rw [h.2]

/-- C5: After `compact_region` has processed all live objects of a region, it
clears the region's liveness bitmap exactly when `G1VerifyBitmaps` is enabled
(otherwise the bitmap is left untouched), and it flips the region's state to
compacted and collapses the compaction bookkeeping to bottom. -/
theorem c5_compact_region_bitmap_iff_verify (cfg : Config) (hr r' : HeapRegion)
    (mem mem2 : Mem)
    (hok : G1FullGCCompactTask.compact_region cfg hr mem = .ok (r', mem2)) :
    applyAll hr.liveObjects mem = .ok mem2 ∧
    r'.bitmap = (if cfg.G1VerifyBitmaps then [] else hr.bitmap) ∧
    r'.state = .compacted ∧
    r'.tams = hr.bottom := by
  obtain ⟨-, -, happ, hr'⟩ := compact_region_ok hok
  subst hr'
  refine ⟨happ, ?_, rfl, ?_⟩ <;>
    by_cases hv : cfg.G1VerifyBitmaps <;>
      simp [hv, G1CMBitMap.clear_region, HeapRegion.reset_compacted_after_full_gc]

/-- Witness for C5 at a concrete region with verification disabled: the bitmap
stays stale. -/
theorem c5_compact_region_bitmap_iff_verify_witness :
    applyAll [] (fun _ => 0) = .ok (fun _ => 0) ∧
    (HeapRegion.reset_compacted_after_full_gc
      ⟨false, false, false, 0, 5, [0], [], .unprocessed, 0⟩).bitmap =
      (if (Config.mk false 0).G1VerifyBitmaps then []
       else (⟨false, false, false, 0, 5, [0], [], .unprocessed, 0⟩ : HeapRegion).bitmap) ∧
    (HeapRegion.reset_compacted_after_full_gc
      ⟨false, false, false, 0, 5, [0], [], .unprocessed, 0⟩).state = .compacted ∧
    (HeapRegion.reset_compacted_after_full_gc
      ⟨false, false, false, 0, 5, [0], [], .unprocessed, 0⟩).tams =
      (⟨false, false, false, 0, 5, [0], [], .unprocessed, 0⟩ : HeapRegion).bottom := by
  have h := c5_compact_region_bitmap_iff_verify ⟨false, 0⟩
    ⟨false, false, false, 0, 5, [0], [], .unprocessed, 0⟩
    (HeapRegion.reset_compacted_after_full_gc
      ⟨false, false, false, 0, 5, [0], [], .unprocessed, 0⟩)
    (fun _ => 0) (fun _ => 0) rfl
  exact h

/-! ## The Skip-Compaction Handler -/

/-- C6: The skip handler clears the region's liveness bitmap unconditionally
and resets the region's state and bookkeeping, while heap memory (hence every
object payload byte) and every other region attribute and every other region
are left unchanged. -/
theorem c6_skip_handler_metadata_only (h : Heap) (i : Nat) (r : HeapRegion)
    (hr : h.regions[i]? = some r) :
    (skipRegionAt h i).mem = h.mem ∧
    (skipRegionAt h i).regions[i]? =
      some (bumpTerminal (G1FullGCCompactTask.process_skipping_compaction_region r)) ∧
    (∀ j, j ≠ i → (skipRegionAt h i).regions[j]? = h.regions[j]?) ∧
    (G1FullGCCompactTask.process_skipping_compaction_region r).bitmap = [] ∧
    (G1FullGCCompactTask.process_skipping_compaction_region r).state = .skipped ∧
    (G1FullGCCompactTask.process_skipping_compaction_region r).tams = r.bottom ∧
    (G1FullGCCompactTask.process_skipping_compaction_region r).is_pinned = r.is_pinned ∧
    (G1FullGCCompactTask.process_skipping_compaction_region r).is_humongous = r.is_humongous ∧
    (G1FullGCCompactTask.process_skipping_compaction_region r).bottom = r.bottom ∧
    (G1FullGCCompactTask.process_skipping_compaction_region r).liveObjects = r.liveObjects := by
  unfold skipRegionAt
  rw [hr]
  refine ⟨rfl, ?_, ?_, rfl, rfl, rfl, rfl, rfl, rfl, rfl⟩
  · simp only [List.getElem?_set_self', hr]
    rfl
  · intro j hj
    exact List.getElem?_set_ne (Ne.symm hj)

/-- Witness for C6 at a concrete one-region heap. -/
theorem c6_skip_handler_metadata_only_witness :
    (skipRegionAt ⟨[⟨false, false, false, 2, 9, [2, 4], [], .unprocessed, 0⟩], fun _ => 3⟩ 0).mem =
      (fun _ => 3) ∧
    (G1FullGCCompactTask.process_skipping_compaction_region
      ⟨false, false, false, 2, 9, [2, 4], [], .unprocessed, 0⟩).bitmap = [] ∧
    (G1FullGCCompactTask.process_skipping_compaction_region
      ⟨false, false, false, 2, 9, [2, 4], [], .unprocessed, 0⟩).state = .skipped := by
  have h := c6_skip_handler_metadata_only
    ⟨[⟨false, false, false, 2, 9, [2, 4], [], .unprocessed, 0⟩], fun _ => 3⟩ 0
    ⟨false, false, false, 2, 9, [2, 4], [], .unprocessed, 0⟩ rfl
  exact ⟨h.1, h.2.2.2.1, h.2.2.2.2.1⟩

/-- The compaction closure can only signal the moving-to-self or missing-klass
assertions. -/
theorem apply_error_cases {obj : Oop} {mem : Mem} {e : GCAssert}
    (h : G1CompactRegionClosure.apply obj mem = .error e) :
    e = .movingToSelf ∨ e = .noKlass := by
  unfold G1CompactRegionClosure.apply at h
  cases hf : obj.forwardee with
  | none => rw [hf] at h; cases h
  | some d =>
    rw [hf] at h
    dsimp only at h
    split at h
    · injection h with h
      exact Or.inl h.symm
    · split at h
      · injection h with h
        exact Or.inr h.symm
      · cases h

/-- Relocating a region's live objects can only signal the moving-to-self or
missing-klass assertions. -/
theorem applyAll_error_cases {objs : List Oop} {mem : Mem} {e : GCAssert}
    (h : applyAll objs mem = .error e) : e = .movingToSelf ∨ e = .noKlass := by
  induction objs generalizing mem with
  | nil => cases h
  | cons o rest ih =>
    unfold applyAll at h
    cases ha : G1CompactRegionClosure.apply o mem with
    | error a =>
      rw [ha] at h
      injection h with h
      exact h ▸ apply_error_cases ha
    | ok p =>
      rw [ha] at h
      exact ih h

/-- C8: `compact_region` checks at entry that its region is neither pinned nor
humongous: a pinned region trips the pinned assertion, a humongous one the
humongous assertion, and for a region that is neither, those two assertion
branches are unreachable (any remaining failure comes from the object walk). -/
theorem c8_compact_region_entry_asserts (cfg : Config) (hr : HeapRegion) (mem : Mem) :
    (hr.is_pinned = true →
      G1FullGCCompactTask.compact_region cfg hr mem = .error .pinnedInQueue) ∧
    (hr.is_pinned = false → hr.is_humongous = true →
      G1FullGCCompactTask.compact_region cfg hr mem = .error .humongousInQueue) ∧
    (hr.is_pinned = false → hr.is_humongous = false →
      ∀ e, G1FullGCCompactTask.compact_region cfg hr mem = .error e →
        e ≠ .pinnedInQueue ∧ e ≠ .humongousInQueue) := by
  refine ⟨?_, ?_, ?_⟩
  · intro hp
    unfold G1FullGCCompactTask.compact_region
    rw [if_pos hp]
  · intro hp hh
    unfold G1FullGCCompactTask.compact_region
    rw [if_neg (by simp [hp]), if_pos hh]
  · intro hp hh e he
    unfold G1FullGCCompactTask.compact_region at he
    rw [if_neg (by simp [hp]), if_neg (by simp [hh])] at he
    cases ha : applyAll hr.liveObjects mem with
    | error a =>
      rw [ha] at he
      injection he with he
      rcases he ▸ applyAll_error_cases ha with h | h <;> subst h <;> exact ⟨by simp, by simp⟩
    | ok m1 => rw [ha] at he; cases he

/-- Witness for C8: a pinned region trips the entry assertion at a concrete
input. -/
theorem c8_compact_region_entry_asserts_witness :
    G1FullGCCompactTask.compact_region ⟨false, 0⟩
      ⟨true, false, false, 0, 0, [], [], .unprocessed, 0⟩ (fun _ => 0) =
      .error .pinnedInQueue :=
  (c8_compact_region_entry_asserts ⟨false, 0⟩
    ⟨true, false, false, 0, 0, [], [], .unprocessed, 0⟩ (fun _ => 0)).1 rfl

/-! ## The Pinned-Region Resetter -/

/-- A successful `do_heap_region` call returns `false` and either leaves a
non-pinned region unchanged or stores the pinned reset of a pinned region. -/
theorem do_heap_region_ok {r r' : HeapRegion} {b : Bool}
    (h : G1ResetPinnedClosure.do_heap_region r = .ok (r', b)) :
    b = false ∧ r' = (if r.is_pinned then r.reset_pinned_after_full_gc else r) := by
  unfold G1ResetPinnedClosure.do_heap_region at h
  by_cases hp : r.is_pinned = false
  · rw [if_pos hp] at h
    injection h with h
    injection h with h1 h2
    simp [hp, ← h1, ← h2]
  · rw [if_neg hp] at h
    have hp' : r.is_pinned = true := by simpa using hp
    split at h
    · cases h
    · injection h with h
      injection h with h1 h2
      simp [hp', ← h1, ← h2]

/-- C9: Applying the pinned-region resetter to the result of a previous
application is a no-op: the region state produced by running the closure twice
equals the state after running it once. -/
theorem c9_pinned_reset_idempotent (r r' : HeapRegion) (b : Bool)
    (h1 : G1ResetPinnedClosure.do_heap_region r = .ok (r', b)) :
    G1ResetPinnedClosure.do_heap_region r' = .ok (r', false) := by
  obtain ⟨-, hr'⟩ := do_heap_region_ok h1
  subst hr'
  by_cases hp : r.is_pinned = true
  · rw [if_pos hp]
    unfold G1ResetPinnedClosure.do_heap_region at h1 ⊢
    rw [if_neg (by simp [hp])] at h1
    split at h1
    · cases h1
    · rename_i hc
      rw [if_neg (by simp [HeapRegion.reset_pinned_after_full_gc, hp]),
        if_neg (by simpa [HeapRegion.reset_pinned_after_full_gc] using hc)]
      rfl
  · have hp' : r.is_pinned = false := by simpa using hp
    rw [if_neg (by simp [hp'])]
    unfold G1ResetPinnedClosure.do_heap_region
    rw [if_pos hp']

/-- Witness for C9: the already-reset concrete pinned region is a fixed point
of the resetter. -/
theorem c9_pinned_reset_idempotent_witness :
    G1ResetPinnedClosure.do_heap_region
      ⟨true, false, false, 3, 3, [3], [], .pinnedReset, 0⟩ =
      .ok (⟨true, false, false, 3, 3, [3], [], .pinnedReset, 0⟩, false) :=
  c9_pinned_reset_idempotent ⟨true, false, false, 3, 7, [3], [], .unprocessed, 0⟩
    ⟨true, false, false, 3, 3, [3], [], .pinnedReset, 0⟩ false rfl

/-- C10: `G1ResetPinnedClosure::do_heap_region` returns `false` for every
region, so the pinned-reset iteration never stops early — it behaves exactly
like the unconditional visit of every claimed region — and a region that is
not pinned is left completely unchanged. -/
theorem c10_pinned_closure_full_iteration :
    (∀ (r r' : HeapRegion) (b : Bool),
      G1ResetPinnedClosure.do_heap_region r = .ok (r', b) → b = false) ∧
    (∀ (r r' : HeapRegion) (b : Bool), r.is_pinned = false →
      G1ResetPinnedClosure.do_heap_region r = .ok (r', b) → r' = r) ∧
    (∀ (slice : List Nat) (h : Heap), pinnedIterate slice h = pinnedIterateAll slice h) := by
  refine ⟨?_, ?_, ?_⟩
  · intro r r' b hb
    exact (do_heap_region_ok hb).1
  · intro r r' b hp hb
    rw [(do_heap_region_ok hb).2, if_neg (by simp [hp])]
  · intro slice
    induction slice with
    | nil => intro h; rfl
    | cons i rest ih =>
      intro h
      unfold pinnedIterate pinnedIterateAll
      cases h.regions[i]? with
      | none => exact ih h
      | some r =>
        dsimp only
        cases hd : G1ResetPinnedClosure.do_heap_region r with
        | error e => rfl
        | ok p =>
          obtain ⟨r', stop⟩ := p
          obtain ⟨rfl, -⟩ := do_heap_region_ok hd
          simp only [Bool.false_eq_true, if_false]
          exact ih _

/-- Witness for C10: the closure on a concrete non-pinned region returns the
region unchanged with `false`. -/
theorem c10_pinned_closure_full_iteration_witness :
    (⟨false, true, false, 1, 4, [1], [], .unprocessed, 0⟩ : HeapRegion) =
      ⟨false, true, false, 1, 4, [1], [], .unprocessed, 0⟩ :=
  c10_pinned_closure_full_iteration.2.1
    ⟨false, true, false, 1, 4, [1], [], .unprocessed, 0⟩
    ⟨false, true, false, 1, 4, [1], [], .unprocessed, 0⟩ false rfl rfl

/-! ## The Parallel Compaction Coordinator -/

/-- C3: `work` is exactly the strictly ordered composition of its three steps:
first the compaction queue is drained in queue order, then — if and only if
`MarkSweepDeadRatio` is positive — the skipping-compaction set is drained, and
finally the worker's claimed slice of all heap regions is swept by the
pinned-reset closure. -/
theorem c3_work_three_ordered_steps (cfg : Config) (queue skips slice : List Nat) (h : Heap) :
    G1FullGCCompactTask.work cfg queue skips slice h =
      (compactQueuePass cfg queue h).bind (fun h1 =>
        pinnedIterate slice (if 0 < cfg.MarkSweepDeadRatio then skipPass skips h1 else h1)) ∧
    (cfg.MarkSweepDeadRatio = 0 →
      G1FullGCCompactTask.work cfg queue skips slice h =
        (compactQueuePass cfg queue h).bind (fun h1 => pinnedIterate slice h1)) := by
  constructor
  · unfold G1FullGCCompactTask.work
    cases compactQueuePass cfg queue h with
    | error e => rfl
    | ok h1 => rfl
  · intro h0
    unfold G1FullGCCompactTask.work
    cases compactQueuePass cfg queue h with
    | error e => rfl
    | ok h1 =>
      simp only [h0]
      rfl

/-- Witness for C3: with a zero dead-space tolerance the skip step is omitted
at a concrete input. -/
theorem c3_work_three_ordered_steps_witness :
    G1FullGCCompactTask.work ⟨false, 0⟩ [] [0] [] ⟨[], fun _ => 0⟩ =
      (compactQueuePass ⟨false, 0⟩ [] ⟨[], fun _ => 0⟩).bind
        (fun h1 => pinnedIterate [] h1) :=
  (c3_work_three_ordered_steps ⟨false, 0⟩ [] [0] [] ⟨[], fun _ => 0⟩).2 rfl

/-! ## Per-pass effect lemmas for the exactly-once invariant -/

theorem compactedResult_is_pinned (cfg : Config) (r : HeapRegion) :
    (compactedResult cfg r).is_pinned = r.is_pinned := by
  by_cases hv : cfg.G1VerifyBitmaps <;>
    simp [compactedResult, hv, bumpTerminal, G1CMBitMap.clear_region,
      HeapRegion.reset_compacted_after_full_gc]

theorem compactedResult_state (cfg : Config) (r : HeapRegion) :
    (compactedResult cfg r).state = .compacted := by
  by_cases hv : cfg.G1VerifyBitmaps <;>
    simp [compactedResult, hv, bumpTerminal, G1CMBitMap.clear_region,
      HeapRegion.reset_compacted_after_full_gc]

theorem compactedResult_terminalWrites (cfg : Config) (r : HeapRegion) :
    (compactedResult cfg r).terminalWrites = r.terminalWrites + 1 := by
  by_cases hv : cfg.G1VerifyBitmaps <;>
    simp [compactedResult, hv, bumpTerminal, G1CMBitMap.clear_region,
      HeapRegion.reset_compacted_after_full_gc]

theorem skipResult_is_pinned (r : HeapRegion) : (skipResult r).is_pinned = r.is_pinned := rfl

theorem skipResult_state (r : HeapRegion) : (skipResult r).state = .skipped := rfl

theorem skipResult_terminalWrites (r : HeapRegion) :
    (skipResult r).terminalWrites = r.terminalWrites + 1 := rfl

theorem pinnedResult_is_pinned (r : HeapRegion) : (pinnedResult r).is_pinned = r.is_pinned := rfl

theorem pinnedResult_state (r : HeapRegion) : (pinnedResult r).state = .pinnedReset := rfl

theorem pinnedResult_terminalWrites (r : HeapRegion) :
    (pinnedResult r).terminalWrites = r.terminalWrites + 1 := rfl

theorem compactRegionAt_frame {cfg : Config} {h h' : Heap} {i j : Nat}
    (hok : compactRegionAt cfg h i = .ok h') (hj : j ≠ i) :
    h'.regions[j]? = h.regions[j]? := by
  unfold compactRegionAt at hok
  cases hg : h.regions[i]? with
  | none =>
    rw [hg] at hok
    injection hok with hok
    rw [← hok]
  | some r =>
    rw [hg] at hok
    dsimp only at hok
    cases hc : G1FullGCCompactTask.compact_region cfg r h.mem with
    | error e => rw [hc] at hok; cases hok
    | ok p =>
      obtain ⟨r2, mem2⟩ := p
      rw [hc] at hok
      injection hok with hok
      rw [← hok]
      exact List.getElem?_set_ne (Ne.symm hj)

theorem compactRegionAt_at {cfg : Config} {h h' : Heap} {i : Nat} {r : HeapRegion}
    (hok : compactRegionAt cfg h i = .ok h') (hg : h.regions[i]? = some r) :
    h'.regions[i]? = some (compactedResult cfg r) := by
  unfold compactRegionAt at hok
  rw [hg] at hok
  dsimp only at hok
  cases hc : G1FullGCCompactTask.compact_region cfg r h.mem with
  | error e => rw [hc] at hok; cases hok
  | ok p =>
    obtain ⟨r2, mem2⟩ := p
    rw [hc] at hok
    injection hok with hok
    obtain ⟨-, -, -, hr2⟩ := compact_region_ok hc
    rw [← hok]
    show (h.regions.set i (bumpTerminal r2))[i]? = some (compactedResult cfg r)
    rw [List.getElem?_set_self', hg, hr2]
    rfl

theorem compactQueuePass_frame {cfg : Config} {q : List Nat} {h h' : Heap} {j : Nat}
    (hok : compactQueuePass cfg q h = .ok h') (hj : j ∉ q) :
    h'.regions[j]? = h.regions[j]? := by
  induction q generalizing h with
  | nil =>
    injection hok with hok
    rw [hok]
  | cons i rest ih =>
    unfold compactQueuePass at hok
    cases hc : compactRegionAt cfg h i with
    | error e => rw [hc] at hok; cases hok
    | ok h1 =>
      rw [hc] at hok
      dsimp only at hok
      have hji : j ≠ i := fun he => hj (he ▸ List.mem_cons_self i rest)
      rw [ih hok (fun hm => hj (List.mem_cons_of_mem i hm)),
        compactRegionAt_frame hc hji]

theorem compactQueuePass_at {cfg : Config} {q : List Nat} {h h' : Heap} {i : Nat}
    {r : HeapRegion} (hok : compactQueuePass cfg q h = .ok h')
    (hcnt : q.count i = 1) (hg : h.regions[i]? = some r) :
    h'.regions[i]? = some (compactedResult cfg r) := by
  induction q generalizing h with
  | nil => cases hcnt
  | cons j rest ih =>
    unfold compactQueuePass at hok
    cases hc : compactRegionAt cfg h j with
    | error e => rw [hc] at hok; cases hok
    | ok h1 =>
      rw [hc] at hok
      dsimp only at hok
      by_cases hji : j = i
      · subst hji
        have hrest : j ∉ rest := by
          rw [List.count_cons_self] at hcnt
          exact List.count_eq_zero.mp (by omega)
        rw [compactQueuePass_frame hok hrest]
        exact compactRegionAt_at hc hg
      · have hcnt' : rest.count i = 1 := by
          rw [List.count_cons_of_ne (fun he => hji he.symm)] at hcnt
          exact hcnt
        have hgi : h1.regions[i]? = some r := by
          rw [compactRegionAt_frame hc (fun he => hji he.symm)]
          exact hg
        exact ih hok hcnt' hgi

theorem skipRegionAt_frame {h : Heap} {i j : Nat} (hj : j ≠ i) :
    (skipRegionAt h i).regions[j]? = h.regions[j]? := by
  unfold skipRegionAt
  cases hg : h.regions[i]? with
  | none => rfl
  | some r => exact List.getElem?_set_ne (Ne.symm hj)

theorem skipRegionAt_at {h : Heap} {i : Nat} {r : HeapRegion}
    (hg : h.regions[i]? = some r) :
    (skipRegionAt h i).regions[i]? = some (skipResult r) := by
  unfold skipRegionAt
  rw [hg]
  show (h.regions.set i (skipResult r))[i]? = some (skipResult r)
  rw [List.getElem?_set_self', hg]
  rfl

theorem skipPass_frame {q : List Nat} {h : Heap} {j : Nat} (hj : j ∉ q) :
    (skipPass q h).regions[j]? = h.regions[j]? := by
  induction q generalizing h with
  | nil => rfl
  | cons i rest ih =>
    have hji : j ≠ i := fun he => hj (by rw [he]; exact List.mem_cons_self i rest)
    have hjr : j ∉ rest := fun hm => hj (List.mem_cons_of_mem i hm)
    unfold skipPass
    rw [ih hjr, skipRegionAt_frame hji]

theorem skipPass_at {q : List Nat} {h : Heap} {i : Nat} {r : HeapRegion}
    (hcnt : q.count i = 1) (hg : h.regions[i]? = some r) :
    (skipPass q h).regions[i]? = some (skipResult r) := by
  induction q generalizing h with
  | nil => cases hcnt
  | cons j rest ih =>
    unfold skipPass
    by_cases hji : j = i
    · subst hji
      have hrest : j ∉ rest := by
        rw [List.count_cons_self] at hcnt
        exact List.count_eq_zero.mp (by omega)
      rw [skipPass_frame hrest]
      exact skipRegionAt_at hg
    · have hcnt' : rest.count i = 1 := by
        rw [List.count_cons_of_ne (fun he => hji he.symm)] at hcnt
        exact hcnt
      have hgi : (skipRegionAt h j).regions[i]? = some r := by
        rw [skipRegionAt_frame (fun he => hji he.symm)]
        exact hg
      exact ih hcnt' hgi

theorem pinnedIterate_frame {slice : List Nat} {h h' : Heap} {j : Nat}
    (hok : pinnedIterate slice h = .ok h') (hj : j ∉ slice) :
    h'.regions[j]? = h.regions[j]? := by
  induction slice generalizing h with
  | nil =>
    injection hok with hok
    rw [hok]
  | cons i rest ih =>
    have hji : j ≠ i := fun he => hj (he ▸ List.mem_cons_self i rest)
    have hjr : j ∉ rest := fun hm => hj (List.mem_cons_of_mem i hm)
    unfold pinnedIterate at hok
    cases hg : h.regions[i]? with
    | none =>
      rw [hg] at hok
      exact ih hok hjr
    | some r =>
      rw [hg] at hok
      dsimp only at hok
      cases hd : G1ResetPinnedClosure.do_heap_region r with
      | error e => rw [hd] at hok; cases hok
      | ok p =>
        obtain ⟨r', stop⟩ := p
        obtain ⟨rfl, -⟩ := do_heap_region_ok hd
        rw [hd] at hok
        simp only [Bool.false_eq_true, if_false] at hok
        rw [ih hok hjr]
        exact List.getElem?_set_ne (Ne.symm hji)

theorem pinnedIterate_keep_unpinned {slice : List Nat} {h h' : Heap} {i : Nat}
    {v : HeapRegion} (hok : pinnedIterate slice h = .ok h')
    (hg : h.regions[i]? = some v) (hp : v.is_pinned = false) :
    h'.regions[i]? = some v := by
  induction slice generalizing h with
  | nil =>
    injection hok with hok
    rw [← hok]
    exact hg
  | cons k rest ih =>
    unfold pinnedIterate at hok
    by_cases hki : k = i
    · subst hki
      rw [hg] at hok
      dsimp only at hok
      cases hd : G1ResetPinnedClosure.do_heap_region v with
      | error e => rw [hd] at hok; cases hok
      | ok p =>
        obtain ⟨r', stop⟩ := p
        obtain ⟨rfl, hr'⟩ := do_heap_region_ok hd
        rw [if_neg (by simp [hp])] at hr'
        rw [hd] at hok
        simp only [Bool.false_eq_true, if_false] at hok
        rw [hr'] at hok
        refine ih hok ?_
        show (h.regions.set k (if v.is_pinned = true then bumpTerminal v else v))[k]? = some v
        rw [List.getElem?_set_self', hg]
        simp [hp]
    · cases hg2 : h.regions[k]? with
      | none =>
        rw [hg2] at hok
        exact ih hok hg
      | some r =>
        rw [hg2] at hok
        dsimp only at hok
        cases hd : G1ResetPinnedClosure.do_heap_region r with
        | error e => rw [hd] at hok; cases hok
        | ok p =>
          obtain ⟨r', stop⟩ := p
          obtain ⟨rfl, -⟩ := do_heap_region_ok hd
          rw [hd] at hok
          simp only [Bool.false_eq_true, if_false] at hok
          refine ih hok ?_
          show (h.regions.set k _)[i]? = some v
          rw [List.getElem?_set_ne hki]
          exact hg

theorem pinnedIterate_at_pinned {slice : List Nat} {h h' : Heap} {i : Nat}
    {r : HeapRegion} (hok : pinnedIterate slice h = .ok h')
    (hcnt : slice.count i = 1) (hg : h.regions[i]? = some r)
    (hp : r.is_pinned = true) :
    h'.regions[i]? = some (pinnedResult r) := by
  induction slice generalizing h with
  | nil => cases hcnt
  | cons k rest ih =>
    unfold pinnedIterate at hok
    by_cases hki : k = i
    · subst hki
      have hrest : k ∉ rest := by
        rw [List.count_cons_self] at hcnt
        exact List.count_eq_zero.mp (by omega)
      rw [hg] at hok
      dsimp only at hok
      cases hd : G1ResetPinnedClosure.do_heap_region r with
      | error e => rw [hd] at hok; cases hok
      | ok p =>
        obtain ⟨r', stop⟩ := p
        obtain ⟨rfl, hr'⟩ := do_heap_region_ok hd
        rw [if_pos hp] at hr'
        subst hr'
        rw [hd] at hok
        simp only [Bool.false_eq_true, if_false] at hok
        rw [pinnedIterate_frame hok hrest]
        show (h.regions.set k
          (if r.is_pinned = true then bumpTerminal r.reset_pinned_after_full_gc
           else r.reset_pinned_after_full_gc))[k]? = some (pinnedResult r)
        rw [List.getElem?_set_self', hg, hp]
        rfl
    · have hcnt' : rest.count i = 1 := by
        rw [List.count_cons_of_ne (fun he => hki he.symm)] at hcnt
        exact hcnt
      cases hg2 : h.regions[k]? with
      | none =>
        rw [hg2] at hok
        exact ih hok hcnt' hg
      | some rk =>
        rw [hg2] at hok
        dsimp only at hok
        cases hd : G1ResetPinnedClosure.do_heap_region rk with
        | error e => rw [hd] at hok; cases hok
        | ok p =>
          obtain ⟨r', stop⟩ := p
          obtain ⟨rfl, -⟩ := do_heap_region_ok hd
          rw [hd] at hok
          simp only [Bool.false_eq_true, if_false] at hok
          refine ih hok hcnt' ?_
          show (h.regions.set k _)[i]? = some r
          rw [List.getElem?_set_ne hki]
          exact hg

theorem queueIdxs_cons (w : WorkerPlan) (ws : List WorkerPlan) :
    queueIdxs (w :: ws) = w.queue ++ queueIdxs ws := by
  simp [queueIdxs]

theorem skipIdxs_cons (w : WorkerPlan) (ws : List WorkerPlan) :
    skipIdxs (w :: ws) = w.skips ++ skipIdxs ws := by
  simp [skipIdxs]

theorem sliceIdxs_cons (w : WorkerPlan) (ws : List WorkerPlan) :
    sliceIdxs (w :: ws) = w.slice ++ sliceIdxs ws := by
  simp [sliceIdxs]

theorem mem_queueIdxs {ws : List WorkerPlan} {w : WorkerPlan} {i : Nat}
    (hw : w ∈ ws) (hi : i ∈ w.queue) : i ∈ queueIdxs ws := by
  simp only [queueIdxs, List.mem_flatten]
  exact ⟨w.queue, List.mem_map_of_mem _ hw, hi⟩

theorem mem_skipIdxs {ws : List WorkerPlan} {w : WorkerPlan} {i : Nat}
    (hw : w ∈ ws) (hi : i ∈ w.skips) : i ∈ skipIdxs ws := by
  simp only [skipIdxs, List.mem_flatten]
  exact ⟨w.skips, List.mem_map_of_mem _ hw, hi⟩

theorem mem_sliceIdxs {ws : List WorkerPlan} {w : WorkerPlan} {i : Nat}
    (hw : w ∈ ws) (hi : i ∈ w.slice) : i ∈ sliceIdxs ws := by
  simp only [sliceIdxs, List.mem_flatten]
  exact ⟨w.slice, List.mem_map_of_mem _ hw, hi⟩

theorem work_parts {cfg : Config} {q s sl : List Nat} {h h' : Heap}
    (hok : G1FullGCCompactTask.work cfg q s sl h = .ok h') :
    ∃ h1, compactQueuePass cfg q h = .ok h1 ∧
      pinnedIterate sl (if 0 < cfg.MarkSweepDeadRatio then skipPass s h1 else h1) = .ok h' := by
  unfold G1FullGCCompactTask.work at hok
  cases hc : compactQueuePass cfg q h with
  | error e => rw [hc] at hok; cases hok
  | ok h1 =>
    rw [hc] at hok
    dsimp only at hok
    exact ⟨h1, rfl, hok⟩

theorem work_keep_unpinned {cfg : Config} {q s sl : List Nat} {h h' : Heap}
    {i : Nat} {v : HeapRegion}
    (hok : G1FullGCCompactTask.work cfg q s sl h = .ok h')
    (hq : i ∉ q) (hs : i ∉ s)
    (hg : h.regions[i]? = some v) (hp : v.is_pinned = false) :
    h'.regions[i]? = some v := by
  obtain ⟨h1, hc, hpi⟩ := work_parts hok
  have h1g : h1.regions[i]? = some v := by
    rw [compactQueuePass_frame hc hq]
    exact hg
  have h2g : (if 0 < cfg.MarkSweepDeadRatio then skipPass s h1 else h1).regions[i]? = some v := by
    split
    · rw [skipPass_frame hs]
      exact h1g
    · exact h1g
  exact pinnedIterate_keep_unpinned hpi h2g hp

theorem work_frame {cfg : Config} {q s sl : List Nat} {h h' : Heap} {i : Nat}
    (hok : G1FullGCCompactTask.work cfg q s sl h = .ok h')
    (hq : i ∉ q) (hs : i ∉ s) (hsl : i ∉ sl) :
    h'.regions[i]? = h.regions[i]? := by
  obtain ⟨h1, hc, hpi⟩ := work_parts hok
  rw [pinnedIterate_frame hpi hsl]
  by_cases hr : 0 < cfg.MarkSweepDeadRatio
  · rw [if_pos hr, skipPass_frame hs, compactQueuePass_frame hc hq]
  · rw [if_neg hr, compactQueuePass_frame hc hq]

theorem work_at_queue {cfg : Config} {q s sl : List Nat} {h h' : Heap}
    {i : Nat} {r : HeapRegion}
    (hok : G1FullGCCompactTask.work cfg q s sl h = .ok h')
    (hcnt : q.count i = 1) (hs : i ∉ s)
    (hg : h.regions[i]? = some r) (hp : r.is_pinned = false) :
    h'.regions[i]? = some (compactedResult cfg r) := by
  obtain ⟨h1, hc, hpi⟩ := work_parts hok
  have h1g := compactQueuePass_at hc hcnt hg
  have h2g : (if 0 < cfg.MarkSweepDeadRatio then skipPass s h1 else h1).regions[i]? =
      some (compactedResult cfg r) := by
    split
    · rw [skipPass_frame hs]
      exact h1g
    · exact h1g
  exact pinnedIterate_keep_unpinned hpi h2g (by rw [compactedResult_is_pinned]; exact hp)

theorem work_at_skip {cfg : Config} {q s sl : List Nat} {h h' : Heap}
    {i : Nat} {r : HeapRegion}
    (hok : G1FullGCCompactTask.work cfg q s sl h = .ok h')
    (hq : i ∉ q) (hcnt : s.count i = 1) (hratio : 0 < cfg.MarkSweepDeadRatio)
    (hg : h.regions[i]? = some r) (hp : r.is_pinned = false) :
    h'.regions[i]? = some (skipResult r) := by
  obtain ⟨h1, hc, hpi⟩ := work_parts hok
  have h1g : h1.regions[i]? = some r := by
    rw [compactQueuePass_frame hc hq]
    exact hg
  rw [if_pos hratio] at hpi
  exact pinnedIterate_keep_unpinned hpi (skipPass_at hcnt h1g)
    (by rw [skipResult_is_pinned]; exact hp)

theorem work_at_pinned {cfg : Config} {q s sl : List Nat} {h h' : Heap}
    {i : Nat} {r : HeapRegion}
    (hok : G1FullGCCompactTask.work cfg q s sl h = .ok h')
    (hq : i ∉ q) (hs : i ∉ s) (hcnt : sl.count i = 1)
    (hg : h.regions[i]? = some r) (hp : r.is_pinned = true) :
    h'.regions[i]? = some (pinnedResult r) := by
  obtain ⟨h1, hc, hpi⟩ := work_parts hok
  have h1g : h1.regions[i]? = some r := by
    rw [compactQueuePass_frame hc hq]
    exact hg
  have h2g : (if 0 < cfg.MarkSweepDeadRatio then skipPass s h1 else h1).regions[i]? =
      some r := by
    split
    · rw [skipPass_frame hs]
      exact h1g
    · exact h1g
  exact pinnedIterate_at_pinned hpi hcnt h2g hp

theorem runWorkers_keep_unpinned {cfg : Config} {ws : List WorkerPlan} {h h' : Heap}
    {i : Nat} {v : HeapRegion}
    (hok : runWorkers cfg ws h = .ok h')
    (hall : ∀ w ∈ ws, i ∉ w.queue ∧ i ∉ w.skips)
    (hg : h.regions[i]? = some v) (hp : v.is_pinned = false) :
    h'.regions[i]? = some v := by
  induction ws generalizing h with
  | nil =>
    injection hok with hok
    rw [← hok]
    exact hg
  | cons w rest ih =>
    unfold runWorkers at hok
    cases hw : G1FullGCCompactTask.work cfg w.queue w.skips w.slice h with
    | error e => rw [hw] at hok; cases hok
    | ok h1 =>
      rw [hw] at hok
      dsimp only at hok
      obtain ⟨hq, hs⟩ := hall w (List.mem_cons_self w rest)
      exact ih hok (fun w' hw' => hall w' (List.mem_cons_of_mem w hw'))
        (work_keep_unpinned hw hq hs hg hp)

theorem runWorkers_frame {cfg : Config} {ws : List WorkerPlan} {h h' : Heap} {i : Nat}
    (hok : runWorkers cfg ws h = .ok h')
    (hall : ∀ w ∈ ws, i ∉ w.queue ∧ i ∉ w.skips ∧ i ∉ w.slice) :
    h'.regions[i]? = h.regions[i]? := by
  induction ws generalizing h with
  | nil =>
    injection hok with hok
    rw [← hok]
  | cons w rest ih =>
    unfold runWorkers at hok
    cases hw : G1FullGCCompactTask.work cfg w.queue w.skips w.slice h with
    | error e => rw [hw] at hok; cases hok
    | ok h1 =>
      rw [hw] at hok
      dsimp only at hok
      obtain ⟨hq, hs, hsl⟩ := hall w (List.mem_cons_self w rest)
      rw [ih hok (fun w' hw' => hall w' (List.mem_cons_of_mem w hw'))]
      exact work_frame hw hq hs hsl

theorem runWorkers_at_queue {cfg : Config} {ws : List WorkerPlan} {h h' : Heap}
    {i : Nat} {r : HeapRegion}
    (hok : runWorkers cfg ws h = .ok h')
    (hcnt : (queueIdxs ws).count i = 1) (hs : i ∉ skipIdxs ws)
    (hg : h.regions[i]? = some r) (hp : r.is_pinned = false) :
    h'.regions[i]? = some (compactedResult cfg r) := by
  induction ws generalizing h with
  | nil => simp [queueIdxs] at hcnt
  | cons w rest ih =>
    rw [queueIdxs_cons, List.count_append] at hcnt
    rw [skipIdxs_cons, List.mem_append, not_or] at hs
    obtain ⟨hs1, hs2⟩ := hs
    unfold runWorkers at hok
    cases hw : G1FullGCCompactTask.work cfg w.queue w.skips w.slice h with
    | error e => rw [hw] at hok; cases hok
    | ok h1 =>
      rw [hw] at hok
      dsimp only at hok
      rcases (by omega :
          (w.queue.count i = 1 ∧ (queueIdxs rest).count i = 0) ∨
          (w.queue.count i = 0 ∧ (queueIdxs rest).count i = 1)) with ⟨hA, hB⟩ | ⟨hA, hB⟩
      · have hnq : i ∉ queueIdxs rest := List.count_eq_zero.mp hB
        have h1g := work_at_queue hw hA hs1 hg hp
        exact runWorkers_keep_unpinned hok
          (fun w' hw' => ⟨fun hm => hnq (mem_queueIdxs hw' hm),
            fun hm => hs2 (mem_skipIdxs hw' hm)⟩)
          h1g (by rw [compactedResult_is_pinned]; exact hp)
      · have hnq : i ∉ w.queue := List.count_eq_zero.mp hA
        exact ih hok hB hs2 (work_keep_unpinned hw hnq hs1 hg hp)

theorem runWorkers_at_skip {cfg : Config} {ws : List WorkerPlan} {h h' : Heap}
    {i : Nat} {r : HeapRegion}
    (hok : runWorkers cfg ws h = .ok h')
    (hq : i ∉ queueIdxs ws) (hcnt : (skipIdxs ws).count i = 1)
    (hratio : 0 < cfg.MarkSweepDeadRatio)
    (hg : h.regions[i]? = some r) (hp : r.is_pinned = false) :
    h'.regions[i]? = some (skipResult r) := by
  induction ws generalizing h with
  | nil => simp [skipIdxs] at hcnt
  | cons w rest ih =>
    rw [skipIdxs_cons, List.count_append] at hcnt
    rw [queueIdxs_cons, List.mem_append, not_or] at hq
    obtain ⟨hq1, hq2⟩ := hq
    unfold runWorkers at hok
    cases hw : G1FullGCCompactTask.work cfg w.queue w.skips w.slice h with
    | error e => rw [hw] at hok; cases hok
    | ok h1 =>
      rw [hw] at hok
      dsimp only at hok
      rcases (by omega :
          (w.skips.count i = 1 ∧ (skipIdxs rest).count i = 0) ∨
          (w.skips.count i = 0 ∧ (skipIdxs rest).count i = 1)) with ⟨hA, hB⟩ | ⟨hA, hB⟩
      · have hns : i ∉ skipIdxs rest := List.count_eq_zero.mp hB
        have h1g := work_at_skip hw hq1 hA hratio hg hp
        exact runWorkers_keep_unpinned hok
          (fun w' hw' => ⟨fun hm => hq2 (mem_queueIdxs hw' hm),
            fun hm => hns (mem_skipIdxs hw' hm)⟩)
          h1g (by rw [skipResult_is_pinned]; exact hp)
      · have hns : i ∉ w.skips := List.count_eq_zero.mp hA
        exact ih hok hq2 hB (work_keep_unpinned hw hq1 hns hg hp)

theorem runWorkers_at_pinned {cfg : Config} {ws : List WorkerPlan} {h h' : Heap}
    {i : Nat} {r : HeapRegion}
    (hok : runWorkers cfg ws h = .ok h')
    (hq : i ∉ queueIdxs ws) (hs : i ∉ skipIdxs ws)
    (hcnt : (sliceIdxs ws).count i = 1)
    (hg : h.regions[i]? = some r) (hp : r.is_pinned = true) :
    h'.regions[i]? = some (pinnedResult r) := by
  induction ws generalizing h with
  | nil => simp [sliceIdxs] at hcnt
  | cons w rest ih =>
    rw [sliceIdxs_cons, List.count_append] at hcnt
    rw [queueIdxs_cons, List.mem_append, not_or] at hq
    rw [skipIdxs_cons, List.mem_append, not_or] at hs
    obtain ⟨hq1, hq2⟩ := hq
    obtain ⟨hs1, hs2⟩ := hs
    unfold runWorkers at hok
    cases hw : G1FullGCCompactTask.work cfg w.queue w.skips w.slice h with
    | error e => rw [hw] at hok; cases hok
    | ok h1 =>
      rw [hw] at hok
      dsimp only at hok
      rcases (by omega :
          (w.slice.count i = 1 ∧ (sliceIdxs rest).count i = 0) ∨
          (w.slice.count i = 0 ∧ (sliceIdxs rest).count i = 1)) with ⟨hA, hB⟩ | ⟨hA, hB⟩
      · have hnsl : i ∉ sliceIdxs rest := List.count_eq_zero.mp hB
        have h1g := work_at_pinned hw hq1 hs1 hA hg hp
        rw [runWorkers_frame hok
          (fun w' hw' => ⟨fun hm => hq2 (mem_queueIdxs hw' hm),
            fun hm => hs2 (mem_skipIdxs hw' hm),
            fun hm => hnsl (mem_sliceIdxs hw' hm)⟩)]
        exact h1g
      · have hnsl : i ∉ w.slice := List.count_eq_zero.mp hA
        exact ih hok hq2 hs2 hB (work_frame hw hq1 hs1 hnsl ▸ hg)

/-- C4: After a full compaction cycle — all parallel workers plus the serial
pass — under the upstream guarantees (compaction queues, serial queue and skip
sets mutually disjoint and duplicate-free; queued and skip regions not pinned;
claimed slices partition the whole heap; every region is queued, skipped or
pinned; ghost terminal-write counters start at zero), every heap region holds
exactly one of the terminal outcomes compacted / skipped / pinned-reset, the
outcome matches the region's category, and its terminal flag was written
exactly once. -/
theorem c4_exactly_one_terminal_outcome
    (cfg : Config) (ws : List WorkerPlan) (sq : List Nat) (h0 hf : Heap)
    (hrun : runCycle cfg ws sq h0 = .ok hf)
    (hratio : 0 < cfg.MarkSweepDeadRatio)
    (hnd : (queueIdxs ws ++ sq ++ skipIdxs ws).Nodup)
    (hslnd : (sliceIdxs ws).Nodup)
    (hslcover : ∀ i, i < h0.regions.length → i ∈ sliceIdxs ws)
    (hinit : ∀ r ∈ h0.regions, r.terminalWrites = 0)
    (hqnp : ∀ i ∈ queueIdxs ws ++ sq, ∀ r, h0.regions[i]? = some r → r.is_pinned = false)
    (hsnp : ∀ i ∈ skipIdxs ws, ∀ r, h0.regions[i]? = some r → r.is_pinned = false)
    (hcover : ∀ i, ∀ r, h0.regions[i]? = some r →
      i ∈ queueIdxs ws ++ sq ∨ i ∈ skipIdxs ws ∨ r.is_pinned = true) :
    ∀ i r0, h0.regions[i]? = some r0 →
      ∃ r, hf.regions[i]? = some r ∧
        r.terminalWrites = 1 ∧
        (r.state = .compacted ∨ r.state = .skipped ∨ r.state = .pinnedReset) ∧
        (i ∈ queueIdxs ws ++ sq → r.state = .compacted) ∧
        (i ∈ skipIdxs ws → r.state = .skipped) ∧
        (r0.is_pinned = true → r.state = .pinnedReset) := by
  intro i r0 hg
  have hw0 : r0.terminalWrites = 0 := by
    obtain ⟨hlt, he⟩ := List.getElem?_eq_some.mp hg
    exact hinit r0 (he ▸ List.getElem_mem hlt)
  unfold runCycle at hrun
  cases hwk : runWorkers cfg ws h0 with
  | error e => rw [hwk] at hrun; cases hrun
  | ok h1 =>
    rw [hwk] at hrun
    dsimp only at hrun
    unfold G1FullGCCompactTask.serial_compaction at hrun
    have hcount := List.nodup_iff_count_le_one.mp hnd i
    rw [List.count_append, List.count_append] at hcount
    rcases hcover i r0 hg with hCQ | hSS | hPin
    · -- the region is in some compaction queue
      have hp := hqnp i hCQ r0 hg
      have hpos : 0 < (queueIdxs ws).count i + sq.count i := by
        rcases List.mem_append.mp hCQ with hm | hm
        · have := List.count_pos_iff.mpr hm
          omega
        · have := List.count_pos_iff.mpr hm
          omega
      have hck : (skipIdxs ws).count i = 0 := by omega
      have hnss : i ∉ skipIdxs ws := List.count_eq_zero.mp hck
      have hff : hf.regions[i]? = some (compactedResult cfg r0) := by
        rcases (by omega :
            ((queueIdxs ws).count i = 1 ∧ sq.count i = 0) ∨
            ((queueIdxs ws).count i = 0 ∧ sq.count i = 1)) with ⟨hA, hB⟩ | ⟨hA, hB⟩
        · have h1g := runWorkers_at_queue hwk hA hnss hg hp
          rw [compactQueuePass_frame hrun (List.count_eq_zero.mp hB)]
          exact h1g
        · have hnq : i ∉ queueIdxs ws := List.count_eq_zero.mp hA
          have h1g := runWorkers_keep_unpinned hwk
            (fun w' hw' => ⟨fun hm => hnq (mem_queueIdxs hw' hm),
              fun hm => hnss (mem_skipIdxs hw' hm)⟩) hg hp
          exact compactQueuePass_at hrun hB h1g
      refine ⟨compactedResult cfg r0, hff, ?_, Or.inl (compactedResult_state cfg r0),
        fun _ => compactedResult_state cfg r0, fun hm => absurd hm hnss,
        fun hm => absurd hp (by rw [hm]; exact Bool.true_eq_false ▸ (by simp))⟩
      · rw [compactedResult_terminalWrites, hw0]
    · -- the region is in some skip set
      have hp := hsnp i hSS r0 hg
      have hposk : 0 < (skipIdxs ws).count i := List.count_pos_iff.mpr hSS
      have hcq : (queueIdxs ws).count i = 0 := by omega
      have hcs : sq.count i = 0 := by omega
      have hnq : i ∉ queueIdxs ws := List.count_eq_zero.mp hcq
      have hnsq : i ∉ sq := List.count_eq_zero.mp hcs
      have h1g := runWorkers_at_skip hwk hnq (by omega) hratio hg hp
      have hff : hf.regions[i]? = some (skipResult r0) := by
        rw [compactQueuePass_frame hrun hnsq]
        exact h1g
      refine ⟨skipResult r0, hff, ?_, Or.inr (Or.inl (skipResult_state r0)),
        ?_, fun _ => skipResult_state r0,
        fun hm => absurd hp (by rw [hm]; simp)⟩
      · rw [skipResult_terminalWrites, hw0]
      · intro hm
        rcases List.mem_append.mp hm with hm' | hm'
        · exact absurd hm' hnq
        · exact absurd hm' hnsq
    · -- the region is pinned
      have hnCQ : i ∉ queueIdxs ws ++ sq := by
        intro hm
        have := hqnp i hm r0 hg
        rw [this] at hPin
        cases hPin
      have hnSS : i ∉ skipIdxs ws := by
        intro hm
        have := hsnp i hm r0 hg
        rw [this] at hPin
        cases hPin
      rw [List.mem_append, not_or] at hnCQ
      obtain ⟨hnq, hnsq⟩ := hnCQ
      have hlt : i < h0.regions.length := (List.getElem?_eq_some.mp hg).fst
      have hmemsl := hslcover i hlt
      have hcnt : (sliceIdxs ws).count i = 1 :=
        Nat.le_antisymm (List.nodup_iff_count_le_one.mp hslnd i)
          (List.count_pos_iff.mpr hmemsl)
      have h1g := runWorkers_at_pinned hwk hnq hnSS hcnt hg hPin
      have hff : hf.regions[i]? = some (pinnedResult r0) := by
        rw [compactQueuePass_frame hrun hnsq]
        exact h1g
      refine ⟨pinnedResult r0, hff, ?_,
        Or.inr (Or.inr (pinnedResult_state r0)), ?_,
        fun hm => absurd hm hnSS, fun _ => pinnedResult_state r0⟩
      · rw [pinnedResult_terminalWrites, hw0]
      · intro hm
        rcases List.mem_append.mp hm with hm' | hm'
        · exact absurd hm' hnq
        · exact absurd hm' hnsq

/-- Witness for C4: a concrete cycle over a three-region heap — one queued
region, one skipping-compaction region, one pinned region — gives the pinned
region its single pinned-reset outcome. -/
theorem c4_exactly_one_terminal_outcome_witness :
    (⟨true, false, false, 20, 20, [20], [], .pinnedReset, 1⟩ : HeapRegion).terminalWrites = 1 ∧
    (⟨true, false, false, 20, 20, [20], [], .pinnedReset, 1⟩ : HeapRegion).state = .pinnedReset := by
  obtain ⟨r, hr, hw, -, -, -, hpp⟩ :=
    c4_exactly_one_terminal_outcome ⟨false, 1⟩ [⟨[0], [1], [0, 1, 2]⟩] []
      ⟨[⟨false, false, false, 0, 3, [], [], .unprocessed, 0⟩,
        ⟨false, false, false, 10, 13, [10], [], .unprocessed, 0⟩,
        ⟨true, false, false, 20, 23, [20], [], .unprocessed, 0⟩], fun _ => 0⟩
      ⟨[⟨false, false, false, 0, 0, [], [], .compacted, 1⟩,
        ⟨false, false, false, 10, 10, [], [], .skipped, 1⟩,
        ⟨true, false, false, 20, 20, [20], [], .pinnedReset, 1⟩], fun _ => 0⟩
      rfl (by decide) (by decide) (by decide) (by decide) (by decide)
      (by
        intro i hi r hr
        have hi0 : i = 0 := by simpa [queueIdxs] using hi
        subst hi0
        injection hr with hr
        rw [← hr]
        rfl)
      (by
        intro i hi r hr
        have hi1 : i = 1 := by simpa [skipIdxs] using hi
        subst hi1
        injection hr with hr
        rw [← hr]
        rfl)
      (by
        intro i r hr
        match i with
        | 0 => exact Or.inl (by decide)
        | 1 => exact Or.inr (Or.inl (by decide))
        | 2 =>
          refine Or.inr (Or.inr ?_)
          injection hr with hr
          rw [← hr]
          rfl
        | n + 3 => exact Option.noConfusion hr)
      2 ⟨true, false, false, 20, 23, [20], [], .unprocessed, 0⟩ rfl
  have hval : r = ⟨true, false, false, 20, 20, [20], [], .pinnedReset, 1⟩ := by
    injection hr with hr
    rw [← hr]
    rfl
  subst hval
  exact ⟨hw, hpp rfl⟩
